import Mathlib

/-!
# Verification of the cubecl matmul core against its specification

Shallow embedding of the parts of the repository exercised by the claims:

* the local-variable `Allocator` of `cubecl-core/src/ir/allocator.rs`
  (pooling of mutable locals keyed by `Item`, shared monotone id counter);
* the strategy dispatcher `launch_ref` of `cubecl-linalg/src/matmul/base.rs`;
* the `shape` / `strides` derivations of
  `cubecl-linalg/src/matmul/tests/cmma_matmul/matmul_test_launcher.rs`;
* `StandardAlgorithm::cube_count` of
  `cubecl-linalg/src/matmul/kernels/matmul/algorithm/standard.rs`;
* the `PipelineOps::MemCopyAsync` emission of `cubecl-cpp/src/shared/pipeline.rs`.

Machine integers (`u32` counters and arithmetic) are embedded as `Nat` with
explicit reduction modulo `2 ^ 32` where the source performs wrapping
operations.
-/

set_option maxRecDepth 8000

namespace CubeCL

/-! ## Element types and items (cubecl-core IR)

The IR item module itself is not among the provided sources (only its use
sites in the allocator and in the frontend element files are), so the element
enums are modelled from the spec. -/

/-- Modelled from the spec: float width tags (`FloatKind`); the concrete list
of widths is irrelevant to every claim, only decidable equality matters. -/
inductive FloatKind
  | f16
  | bf16
  | f32
  | f64
  deriving DecidableEq

/-- Modelled from the spec: integer width tags (`IntKind`). -/
inductive IntKind
  | i32
  | i64
  deriving DecidableEq

/-- Modelled from the spec: the scalar element type of an item
(`Elem` in the IR), with atomic variants.  The frontend files construct
`Elem::Int`/`Elem::Float`/`Elem::UInt`; the spec additionally requires
atomic-typed elements, which bypass the mutable-reuse pool. -/
inductive Elem
  | float (kind : FloatKind)
  | int (kind : IntKind)
  | uint
  | boolean
  | atomicInt (kind : IntKind)
  | atomicUInt
  deriving DecidableEq

/-- `Elem::is_atomic`: true exactly on the atomic variants. -/
def Elem.is_atomic : Elem → Bool
  | .atomicInt _ => true
  | .atomicUInt => true
  | _ => false

/-- Modelled from the spec: the byte width of one scalar element
("the element's byte width" in the pipeline copy-size rule). -/
def Elem.size : Elem → Nat
  | .float .f16 => 2
  | .float .bf16 => 2
  | .float .f32 => 4
  | .float .f64 => 8
  | .int .i32 => 4
  | .int .i64 => 8
  | .uint => 4
  | .boolean => 1
  | .atomicInt .i32 => 4
  | .atomicInt .i64 => 8
  | .atomicUInt => 4

/-- The storage item descriptor: element type plus vectorization width.
The allocator's pool is keyed by this exact descriptor. -/
structure Item where
  elem : Elem
  vectorization : Nat
  deriving DecidableEq

/-- `Item::new(elem)`: an item with vectorization 1. -/
def Item.new (elem : Elem) : Item :=
  ⟨elem, 1⟩

/-- Modelled from the spec: a matrix-fragment descriptor
(`Matrix` in the IR: fragment shape plus element type). -/
structure Matrix where
  elem : Elem
  m : Nat
  n : Nat
  k : Nat
  deriving DecidableEq

/-- The kinds of local variables issued by the allocator
(`VariableKind` in the IR, restricted to the variants the allocator builds). -/
inductive VariableKind
  | localConst (id : Nat)
  | localMut (id : Nat)
  | localArray (id : Nat) (length : Nat)
  | slice (id : Nat)
  | matrixVar (id : Nat) (mat : Matrix)
  deriving DecidableEq

/-- The physical id carried by a variable kind. -/
def VariableKind.id : VariableKind → Nat
  | .localConst id => id
  | .localMut id => id
  | .localArray id _ => id
  | .slice id => id
  | .matrixVar id _ => id

/-- `Variable::new(kind, item)`. -/
structure Variable where
  kind : VariableKind
  item : Item
  deriving DecidableEq

/-- `ExpandElement`: either a plain (unpooled) variable or a managed
(reference-counted, pool-shared) variable. -/
inductive ExpandElement
  | plain (v : Variable)
  | managed (v : Variable)
  deriving DecidableEq

/-- The variable id carried by an expand element. -/
def ExpandElement.varId : ExpandElement → Nat
  | .plain v => v.kind.id
  | .managed v => v.kind.id

/-! ## The local allocator (cubecl-core/src/ir/allocator.rs)

The Rust allocator owns `local_mut_pool : HashMap<Item, Vec<ExpandElement>>`
and `next_id : AtomicU32`, both behind shared `Rc` handles.  The embedding
keeps the pool as one insertion-ordered list of pooled bindings, each
carrying its key `item`, its variable `id` and its `Rc::strong_count`
(`strong = 1` means the pool is the only remaining owner).  The per-item
`Vec` of the hash map is recovered by filtering the list on the key, which
preserves the per-item insertion order the Rust `Vec` maintains. -/

/-- One pooled mutable binding: the `Rc<Variable>` stored in
`local_mut_pool`, together with its reference count. -/
structure PoolVar where
  item : Item
  id : Nat
  strong : Nat
  deriving DecidableEq

/-- `2 ^ 32`, the modulus of the `AtomicU32` id counter. -/
def U32 : Nat := 4294967296

/-- The allocator state: the mutable-local pool and the shared id counter.
Every clone of the Rust `Allocator` handle shares both (`Rc`), so one state
value models calls made through any clone. -/
structure Allocator where
  pool : List PoolVar
  nextId : Nat
  deriving DecidableEq

/-- `Allocator::default()`: empty pool, counter at zero. -/
def Allocator.init : Allocator :=
  ⟨[], 0⟩

/-- `Allocator::new_local_index`: `fetch_add(1)` on the `AtomicU32` counter,
returning the previous value; the stored value wraps modulo `2 ^ 32`. -/
def Allocator.new_local_index (a : Allocator) : Nat × Allocator :=
  (a.nextId, { a with nextId := (a.nextId + 1) % U32 })

/-- `Allocator::create_local`: a fresh immutable (`LocalConst`) binding. -/
def Allocator.create_local (a : Allocator) (item : Item) : ExpandElement × Allocator :=
  let (id, a') := a.new_local_index
  (.plain ⟨.localConst id, item⟩, a')

/-- `Allocator::create_local_restricted`: a fresh non-pooled mutable
(`LocalMut`) binding. -/
def Allocator.create_local_restricted (a : Allocator) (item : Item) : ExpandElement × Allocator :=
  let (id, a') := a.new_local_index
  (.plain ⟨.localMut id, item⟩, a')

/-- `Allocator::create_local_array`. -/
def Allocator.create_local_array (a : Allocator) (item : Item) (array_size : Nat) :
    ExpandElement × Allocator :=
  let (id, a') := a.new_local_index
  (.plain ⟨.localArray id array_size, item⟩, a')

/-- `Allocator::create_slice`. -/
def Allocator.create_slice (a : Allocator) (item : Item) : ExpandElement × Allocator :=
  let (id, a') := a.new_local_index
  (.plain ⟨.slice id, item⟩, a')

/-- `Allocator::create_matrix`. -/
def Allocator.create_matrix (a : Allocator) (mat : Matrix) : ExpandElement × Allocator :=
  let (id, a') := a.new_local_index
  (.plain ⟨.matrixVar id mat, Item.new mat.elem⟩, a')

/-- The search of `reuse_local_mut`: among the pooled bindings for `item`,
find the one taken by `vars.iter().rev().find(...)` — the latest-inserted
binding whose only owner is the pool (`strong = 1`) — and clone it
(incrementing its count).  Returns its id and the updated pool. -/
def bumpLast : List PoolVar → Item → Option (Nat × List PoolVar)
  | [], _ => none
  | v :: rest, item =>
    match bumpLast rest item with
    | some (id, rest') => some (id, v :: rest')
    | none =>
      if v.item = item ∧ v.strong = 1 then
        some (v.id, { v with strong := v.strong + 1 } :: rest)
      else
        none

/-- `Allocator::reuse_local_mut`: `Some` of a cloned reusable binding for
`item`, or `None` when every pooled binding of that item is still owned
outside the pool. -/
def Allocator.reuse_local_mut (a : Allocator) (item : Item) :
    Option (ExpandElement × Allocator) :=
  (bumpLast a.pool item).map fun p =>
    (.managed ⟨.localMut p.1, item⟩, { a with pool := p.2 })

/-- `Allocator::add_local_mut`: register a fresh mutable binding into the
pool.  After the call the pool holds one reference and the caller the other,
hence `strong = 2`. -/
def Allocator.add_local_mut (a : Allocator) (item : Item) : Nat × Allocator :=
  let (id, a') := a.new_local_index
  (id, { a' with pool := a'.pool ++ [⟨item, id, 2⟩] })

/-- `Allocator::create_local_mut`: atomic items get a restricted binding;
otherwise reuse a pooled binding if possible, else register a fresh one. -/
def Allocator.create_local_mut (a : Allocator) (item : Item) : ExpandElement × Allocator :=
  if item.elem.is_atomic then
    a.create_local_restricted item
  else
    match a.reuse_local_mut item with
    | some r => r
    | none =>
      let (id, a') := a.add_local_mut item
      (.managed ⟨.localMut id, item⟩, a')

/-- Dropping a caller-held managed handle with variable id `id`: the
`Rc::strong_count` of the pooled binding with that id decreases by one.
Dropping a plain handle does not touch the allocator. -/
def Allocator.dropManaged (a : Allocator) (id : Nat) : Allocator :=
  { a with
    pool := a.pool.map fun w => if w.id = id then { w with strong := w.strong - 1 } else w }

/-! ### Operation sequences over the allocator -/

/-- One step of a `create_local_mut` / drop history.  `dropVar id` drops the
caller-held handle of the pooled binding with variable id `id` (dropping a
plain handle leaves the allocator unchanged, so it is not represented). -/
inductive AllocOp
  | createMut (item : Item)
  | dropVar (id : Nat)
  deriving DecidableEq

/-- Apply one operation to the allocator. -/
def stepOp (a : Allocator) : AllocOp → Allocator
  | .createMut item => (a.create_local_mut item).2
  | .dropVar id => a.dropManaged id

/-- Run a whole operation sequence. -/
def runOps (a : Allocator) : List AllocOp → Allocator
  | [] => a
  | op :: rest => runOps (stepOp a op) rest

/-- A history is valid when every drop releases a handle the caller actually
holds: the dropped id designates a pooled binding with `strong = 2`. -/
def validOpsFrom (a : Allocator) : List AllocOp → Bool
  | [] => true
  | op :: rest =>
    (match op with
      | .createMut _ => true
      | .dropVar id => a.pool.any fun w => w.id == id && w.strong == 2)
    && validOpsFrom (stepOp a op) rest

/-- The variable ids handed out by the `create_local_mut` calls for a fixed
`item` along a history (reused ids are recorded again each time). -/
def issuedIds (a : Allocator) (item : Item) : List AllocOp → List Nat
  | [] => []
  | .createMut it :: rest =>
    let r := a.create_local_mut it
    (if it = item then [r.1.varId] else []) ++ issuedIds r.2 item rest
  | .dropVar id :: rest => issuedIds (a.dropManaged id) item rest

/-- Number of pooled bindings for `item`. -/
def poolCount (a : Allocator) (item : Item) : Nat :=
  a.pool.countP fun w => w.item == item

/-- Number of simultaneously live mutable bindings of `item`: pooled
bindings some caller still holds (`strong ≥ 2`). -/
def liveCount (a : Allocator) (item : Item) : Nat :=
  a.pool.countP fun w => w.item == item && 2 ≤ w.strong

/-- High-water mark of `liveCount` over a history (observed before the first
operation and after every step). -/
def hwm (a : Allocator) (item : Item) : List AllocOp → Nat
  | [] => liveCount a item
  | op :: rest => max (liveCount a item) (hwm (stepOp a op) item rest)

/-! ### Mixed allocation-call sequences (for the shared-counter claim) -/

/-- One call of any allocation kind, or a drop, as interleaved by client
code generation. -/
inductive FullOp
  | opLocal (item : Item)
  | opLocalMut (item : Item)
  | opRestricted (item : Item)
  | opArray (item : Item) (size : Nat)
  | opSlice (item : Item)
  | opMatrix (mat : Matrix)
  | opDrop (id : Nat)
  deriving DecidableEq

/-- Apply one mixed operation. -/
def stepFull (a : Allocator) : FullOp → Allocator
  | .opLocal item => (a.create_local item).2
  | .opLocalMut item => (a.create_local_mut item).2
  | .opRestricted item => (a.create_local_restricted item).2
  | .opArray item size => (a.create_local_array item size).2
  | .opSlice item => (a.create_slice item).2
  | .opMatrix mat => (a.create_matrix mat).2
  | .opDrop id => a.dropManaged id

/-- The ids newly drawn from the shared counter by one mixed operation
(`create_local_mut` draws none when it reuses a pooled binding; a drop draws
none). -/
def newIdsOf (a : Allocator) : FullOp → List Nat
  | .opLocal _ => [a.nextId]
  | .opLocalMut item =>
    if item.elem.is_atomic then [a.nextId]
    else match a.reuse_local_mut item with
      | some _ => []
      | none => [a.nextId]
  | .opRestricted _ => [a.nextId]
  | .opArray _ _ => [a.nextId]
  | .opSlice _ => [a.nextId]
  | .opMatrix _ => [a.nextId]
  | .opDrop _ => []

/-- Run a mixed sequence. -/
def runFull (a : Allocator) : List FullOp → Allocator
  | [] => a
  | op :: rest => runFull (stepFull a op) rest

/-- All ids drawn from the shared counter along a mixed sequence, in order. -/
def idTrace (a : Allocator) : List FullOp → List Nat
  | [] => []
  | op :: rest => newIdsOf a op ++ idTrace (stepFull a op) rest

/-! ## The strategy dispatcher (cubecl-linalg/src/matmul/base.rs) -/

/-- Modelled from the spec: the payload of the `Unavailable` error kind
("identifying which layer and which requirement failed"). -/
structure MatmulAvailabilityError where
  code : Nat
  deriving DecidableEq

/-- Modelled from the spec: the payload of the `InvalidConfiguration` error
kind. -/
structure MatmulInvalidConfigError where
  code : Nat
  deriving DecidableEq

/-- Modelled from the spec: the typed launch error with its two kinds
(`Unavailable`, recoverable by Auto; `InvalidConfig`, always fatal). -/
inductive MatmulLaunchError
  | unavailable (e : MatmulAvailabilityError)
  | invalidConfig (e : MatmulInvalidConfigError)
  deriving DecidableEq

/-- Modelled from the spec: the configurable parameters of the portable
Tiling2D kernel; only its `Default` instance matters to the claims. -/
structure Tiling2dConfig where
  block_size_m : Nat := 64
  block_size_k : Nat := 32
  block_size_n : Nat := 64
  deriving DecidableEq

instance : Inhabited Tiling2dConfig := ⟨{}⟩

/-- The closed set of user-facing strategies (`Strategy` in base.rs). -/
inductive Strategy
  | standard
  | pipelined
  | specialized
  | planeMma
  | simple
  | tiling2d (config : Tiling2dConfig)
  | auto
  deriving DecidableEq

/-- Which inner kernel a dispatch invoked, in invocation order. -/
inductive KernelCall
  | matmulStandard
  | matmulPipelined
  | matmulSpecialized
  | matmulPlaneMma
  | matmulSimple
  | tiling2dKernel (config : Tiling2dConfig)
  deriving DecidableEq

/-- The outcomes the fallible inner kernel launches can produce on the given
tensors; `tiling2d::launch_ref` returns plain `()` and so has no entry. -/
structure LaunchEnv where
  standard : Except MatmulLaunchError Unit
  pipelined : Except MatmulLaunchError Unit
  specialized : Except MatmulLaunchError Unit
  planeMma : Except MatmulLaunchError Unit
  simple : Except MatmulLaunchError Unit

/-- What `launch_ref` does for the caller: return `Ok`, return a typed
error, or `panic!` (the Auto arm panics on non-`Unavailable` errors). -/
inductive LaunchOutcome
  | ok
  | err (e : MatmulLaunchError)
  | panicked (e : MatmulLaunchError)
  deriving DecidableEq

/-- Propagation of an inner kernel result by a non-Auto arm. -/
def ofExcept : Except MatmulLaunchError Unit → LaunchOutcome
  | .ok _ => .ok
  | .error e => .err e

/-- `launch_ref` of base.rs: the dispatcher, returning its outcome together
with the trace of inner kernels invoked. -/
def launch_ref (env : LaunchEnv) : Strategy → LaunchOutcome × List KernelCall
  | .standard => (ofExcept env.standard, [.matmulStandard])
  | .pipelined => (ofExcept env.pipelined, [.matmulPipelined])
  | .specialized => (ofExcept env.specialized, [.matmulSpecialized])
  | .planeMma => (ofExcept env.planeMma, [.matmulPlaneMma])
  | .tiling2d config => (.ok, [.tiling2dKernel config])
  | .simple => (ofExcept env.simple, [.matmulSimple])
  | .auto =>
    match env.standard with
    | .ok _ => (.ok, [.matmulStandard])
    | .error (.unavailable _e) =>
      (.ok, [.matmulStandard, .tiling2dKernel default])
    | .error e => (.panicked e, [.matmulStandard])

/-! ## Problem shapes and strides (matmul_test_launcher.rs) -/

/-- `MatrixLayout`. -/
inductive MatrixLayout
  | rowMajor
  | colMajor
  deriving DecidableEq

/-- `Ident`: which operand a derivation refers to. -/
inductive Ident
  | lhs
  | rhs
  | out
  deriving DecidableEq

/-- `MatmulProblem`, restricted to the fields the claims exercise
(the struct declaration itself is outside the provided sources; the fields
are those base.rs, standard.rs and the test launcher read). -/
structure MatmulProblem where
  m : Nat
  n : Nat
  k : Nat
  batches : List Nat × List Nat
  lhs_layout : MatrixLayout
  rhs_layout : MatrixLayout
  deriving DecidableEq

/-- Modelled from the spec: right-aligned broadcast of two batch-dimension
lists ("derived output batch shape is the union/broadcast of the two"),
working on reversed (innermost-first) lists. -/
def broadcastRev : List Nat → List Nat → List Nat
  | [], ys => ys
  | xs, [] => xs
  | x :: xs, y :: ys => max x y :: broadcastRev xs ys

/-- Modelled from the spec: the broadcast of two batch-dimension lists,
aligned at the innermost (rightmost) axis. -/
def batchBroadcast (xs ys : List Nat) : List Nat :=
  (broadcastRev xs.reverse ys.reverse).reverse

/-- Modelled from the spec: `MatmulProblem::batch_dims`, the broadcast
output batch shape. -/
def MatmulProblem.batch_dims (p : MatmulProblem) : List Nat :=
  batchBroadcast p.batches.1 p.batches.2

/-- Modelled from the spec: `MatmulProblem::num_batches`, the total number
of output batches (product of the broadcast batch dims). -/
def MatmulProblem.num_batches (p : MatmulProblem) : Nat :=
  p.batch_dims.prod

/-- Modelled from the spec: batch compatibility ("batch dimensions must be
broadcast-compatible between operands"): aligned at the innermost axis, each
pair of extents is equal or one of them is 1. -/
def batchCompatRev : List Nat → List Nat → Bool
  | [], _ => true
  | _, [] => true
  | x :: xs, y :: ys => (x == y || x == 1 || y == 1) && batchCompatRev xs ys

/-- Modelled from the spec: broadcast compatibility of two batch lists. -/
def batchCompatible (xs ys : List Nat) : Bool :=
  batchCompatRev xs.reverse ys.reverse

/-- `shape` of matmul_test_launcher.rs: the full tensor shape of one
operand. -/
def shape (p : MatmulProblem) : Ident → List Nat
  | .lhs => p.batches.1 ++ [p.m, p.k]
  | .rhs => p.batches.2 ++ [p.k, p.n]
  | .out => p.batch_dims ++ [p.m, p.n]

/-- `tensor_size` of matmul_test_launcher.rs: total element count of one
operand. -/
def tensor_size (p : MatmulProblem) : Ident → Nat
  | .lhs => p.num_batches * p.m * p.k
  | .rhs => p.num_batches * p.k * p.n
  | .out => p.num_batches * p.m * p.n

/-- `strides` of matmul_test_launcher.rs, translated push by push: build
`[y, x]`, then (when the rank exceeds 2) push `last_batch` and, for each of
the first `rank - 3` entries of the reversed shape, push `last_batch * b`;
finally reverse. -/
def strides (p : MatmulProblem) (ident : Ident) : List Nat :=
  let sh := shape p ident
  let rank := sh.length
  let lxy : Nat × Nat × Nat :=
    match ident with
    | .lhs =>
      match p.lhs_layout with
      | .rowMajor => (p.m * p.k, p.k, 1)
      | .colMajor => (p.m * p.k, 1, p.m)
    | .rhs =>
      match p.rhs_layout with
      | .rowMajor => (p.k * p.n, p.n, 1)
      | .colMajor => (p.k * p.n, 1, p.k)
    | .out => (p.m * p.n, p.n, 1)
  let last_batch := lxy.1
  let x := lxy.2.1
  let y := lxy.2.2
  let st := [y, x]
  let st :=
    if rank > 2 then
      st ++ [last_batch] ++ ((sh.reverse.take (rank - 3)).map fun b => last_batch * b)
    else st
  st.reverse

/-- Reference row-major strides: the stride of each axis is the product of
all following axes' extents (last axis has stride 1). -/
def rowMajorStrides : List Nat → List Nat
  | [] => []
  | _ :: xs => xs.prod :: rowMajorStrides xs

/-- Flat offset of an index under given strides: the dot product. -/
def offsetOf (st idx : List Nat) : Nat :=
  (List.zipWith (· * ·) st idx).sum

/-- Naive row-major reference addressing: the flat offset of `idx` in a
contiguous tensor of extents `sh`. -/
def naiveRowMajorOffset : List Nat → List Nat → Nat
  | _, [] => 0
  | [], _ => 0
  | _ :: sh, i :: idx => i * sh.prod + naiveRowMajorOffset sh idx

/-! ## StandardAlgorithm::cube_count (standard.rs) -/

/-- Modelled from the spec: `MatmulSize`, a per-dimension extent triple. -/
structure MatmulSize where
  m : Nat
  n : Nat
  k : Nat
  deriving DecidableEq

/-- Modelled from the spec: the `MatmulSelection` fields `StandardAlgorithm`
reads (tile shape, stage shape, plane width). -/
structure MatmulSelection where
  tile : MatmulSize
  num_stagess : MatmulSize
  plane_dim : Nat
  deriving DecidableEq

/-- Wrapping u32 subtraction of 1 (for `+ m_stage - 1` on u32 values). -/
def wsub1 (x : Nat) : Nat :=
  (x % U32 + (U32 - 1)) % U32

/-- `StandardAlgorithm::cube_count`, with u32 arithmetic made explicit and
the bound `Dispatch::cube_count` kept as a parameter (`TransposedDispatch`
by default in the source; its definition is outside the provided sources). -/
def cube_count {α : Type} (dispatch : Nat → Nat → Nat → α)
    (selection : MatmulSelection) (problem : MatmulProblem) : α :=
  let m_stage := selection.num_stagess.m * selection.tile.m % U32
  let n_stage := selection.num_stagess.n * selection.tile.n % U32
  let cubes_for_m := wsub1 ((problem.m % U32 + m_stage) % U32) / m_stage
  let cubes_for_n := wsub1 ((problem.n % U32 + n_stage) % U32) / n_stage
  dispatch cubes_for_m cubes_for_n (problem.num_batches % U32)

/-! ## Pipeline operations (cubecl-cpp/src/shared/pipeline.rs) -/

/-- The C++ backend item descriptor of a variable: element type and
vectorization width (`item.elem().size()` and `item.vectorization`). -/
structure CppItem where
  elem : Elem
  vectorization : Nat
  deriving DecidableEq

/-- A C++ backend variable as the pipeline emission consumes it: its item
descriptor plus its element count (the `{source}_length` the emitted call
multiplies by). -/
structure CppVariable where
  item : CppItem
  length : Nat
  deriving DecidableEq

/-- `PipelineOps` of pipeline.rs. -/
inductive PipelineOps
  | init (pipeline : CppVariable) (num_stages : Nat)
  | memCopyAsync (pipeline source destination : CppVariable)
  | producerAcquire (pipeline : CppVariable)
  | producerCommit (pipeline : CppVariable)
  | consumerWait (pipeline : CppVariable)
  | consumerRelease (pipeline : CppVariable)
  deriving DecidableEq

/-- The `size` computed by the `MemCopyAsync` formatting arm:
`item.elem().size() * item.vectorization` of the source's item. -/
def memCopySize (source : CppVariable) : Nat :=
  source.item.elem.size * source.item.vectorization

/-- The byte count passed to the emitted `cuda::memcpy_async` call:
the source's length times the per-line byte size (`{source}_length * {size}`
in the emitted text).  `none` for every non-copy operation. -/
def emittedTransferSize : PipelineOps → Option Nat
  | .memCopyAsync _ source _ => some (source.length * memCopySize source)
  | _ => none

/-! ## Helper lemmas and fixtures for the dispatcher and geometry claims -/

/-- Fixture: a problem with two batch dimensions, exercising the multi-batch
stride derivation. -/
def pBug : MatmulProblem :=
  { m := 2, n := 2, k := 5, batches := ([2, 3], [2, 3]),
    lhs_layout := .rowMajor, rhs_layout := .rowMajor }

/-- Fixture: the availability error used to trigger the Auto fallback. -/
def availErr : MatmulAvailabilityError := ⟨0⟩

/-- Fixture: an environment whose Standard attempt fails as unavailable. -/
def envUnavail : LaunchEnv :=
  { standard := .error (.unavailable availErr)
    pipelined := .ok ()
    specialized := .ok ()
    planeMma := .ok ()
    simple := .ok () }

/-- Fixture: an environment where every fallible kernel fails with a
configuration error. -/
def envInvalid : LaunchEnv :=
  { standard := .error (.invalidConfig ⟨7⟩)
    pipelined := .error (.invalidConfig ⟨7⟩)
    specialized := .error (.invalidConfig ⟨7⟩)
    planeMma := .error (.invalidConfig ⟨7⟩)
    simple := .error (.invalidConfig ⟨7⟩) }

/-- The item/id footprint of the pool (what the hash map's contents look
like, ignoring reference counts). -/
def poolKey (a : Allocator) : List (Item × Nat) :=
  a.pool.map fun w => (w.item, w.id)

/-- The ids of the pooled bindings for one item, in pool order. -/
def idsFor (a : Allocator) (item : Item) : List Nat :=
  ((poolKey a).filter fun pr => pr.1 == item).map Prod.snd

/-- Well-formedness of an allocator state: pool ids are below the counter,
reference counts are 1 (pool only) or 2 (pool plus caller), and pool ids are
pairwise distinct. -/
structure AllocWf (a : Allocator) : Prop where
  id_lt : ∀ w ∈ a.pool, w.id < a.nextId
  strong12 : ∀ w ∈ a.pool, w.strong = 1 ∨ w.strong = 2
  nodup : (a.pool.map PoolVar.id).Nodup

/-- Fixture: a plain non-atomic item. -/
def itF : Item := ⟨.float .f32, 1⟩

/-- Fixture: create, drop, then create twice — two ids for three creates. -/
def opsPool : List AllocOp :=
  [.createMut itF, .dropVar 0, .createMut itF, .createMut itF]

/-- Fixture: an allocator whose pool holds one free binding of `itF`. -/
def aRe : Allocator := ⟨[⟨itF, 5, 1⟩], 6⟩

/-- Fixture: one call of several allocation kinds with a reuse in between. -/
def opsFull : List FullOp :=
  [.opLocal itF, .opLocalMut itF, .opDrop 1, .opLocalMut itF, .opSlice itF]

/-- The truncated-decrement step of `cube_count` computes a ceiling divide,
absent u32 overflow. -/
theorem wsub1_stage_div (m s : Nat) (h0 : 0 < s) (h : m + s < U32) :
    wsub1 ((m % U32 + s % U32) % U32) / (s % U32) = m ⌈/⌉ s := by
  have hs : s % U32 = s := Nat.mod_eq_of_lt (lt_of_le_of_lt (Nat.le_add_left s m) h)
  have hmm : m % U32 = m := Nat.mod_eq_of_lt (lt_of_le_of_lt (Nat.le_add_right m s) h)
  have hU : (0 : Nat) < U32 := by decide
  rw [hs, hmm, Nat.mod_eq_of_lt h, wsub1, Nat.mod_eq_of_lt h]
  have h2 : m + s + (U32 - 1) = (m + s - 1) + U32 := by omega
  rw [h2, Nat.add_mod_right, Nat.mod_eq_of_lt (by omega), Nat.ceilDiv_eq_add_pred_div]

/-! ## Claims about the dispatcher -/

/-- **C1.** Auto dispatch attempts Standard first; exactly when that attempt
fails with the `Unavailable` kind it retries with the Tiling2D kernel under
`Tiling2dConfig::default()` and returns success; any other error kind is
fatal (a panic) and Tiling2D is not invoked. -/
theorem auto_dispatch_fallback (env : LaunchEnv) :
    (launch_ref env .auto).2.head? = some .matmulStandard ∧
    (∀ e, env.standard = .error (.unavailable e) →
      launch_ref env .auto = (.ok, [.matmulStandard, .tiling2dKernel default])) ∧
    (∀ e, env.standard = .error e → (∀ a, e ≠ .unavailable a) →
      launch_ref env .auto = (.panicked e, [.matmulStandard])) ∧
    ((∃ config, KernelCall.tiling2dKernel config ∈ (launch_ref env .auto).2) ↔
      ∃ a, env.standard = .error (.unavailable a)) := by
  cases hs : env.standard with
  | ok u =>
    refine ⟨by simp [launch_ref, hs], ?_, ?_, by simp [launch_ref, hs]⟩
    · intro e he
      simp at he
    · intro e he
      simp at he
  | error e =>
    cases e with
    | unavailable a =>
      refine ⟨by simp [launch_ref, hs], ?_, ?_, ?_⟩
      · intro e _
        simp [launch_ref, hs]
      · intro e he hne
        simp only [Except.error.injEq] at he
        exact absurd he.symm (hne a)
      · simp only [launch_ref, hs]
        constructor
        · intro _
          exact ⟨a, rfl⟩
        · intro _
          exact ⟨default, by simp⟩
    | invalidConfig b =>
      refine ⟨by simp [launch_ref, hs], ?_, ?_, ?_⟩
      · intro e he
        simp at he
      · intro e he _
        simp only [Except.error.injEq] at he
        subst he
        simp [launch_ref, hs]
      · simp [launch_ref, hs]

/-- Witness for C1 at a concrete environment. -/
theorem auto_dispatch_fallback_witness :
    launch_ref envUnavail .auto =
      (.ok, [.matmulStandard, .tiling2dKernel default]) :=
  (auto_dispatch_fallback envUnavail).2.1 availErr rfl

/-- **C10.** The Tiling2D arm of `launch_ref` always returns `Ok` (the inner
kernel is infallible), while the Standard, Pipelined, Specialized and Simple
arms propagate the inner kernel's error. -/
theorem tiling2d_arm_never_errors (env : LaunchEnv) (config : Tiling2dConfig) :
    launch_ref env (.tiling2d config) = (.ok, [.tiling2dKernel config]) ∧
    (∀ e, env.standard = .error e → (launch_ref env .standard).1 = .err e) ∧
    (∀ e, env.pipelined = .error e → (launch_ref env .pipelined).1 = .err e) ∧
    (∀ e, env.specialized = .error e → (launch_ref env .specialized).1 = .err e) ∧
    (∀ e, env.simple = .error e → (launch_ref env .simple).1 = .err e) := by
  refine ⟨rfl, ?_, ?_, ?_, ?_⟩ <;> intro e he <;> simp [launch_ref, ofExcept, he]

/-- Witness for C10 at a concrete environment. -/
theorem tiling2d_arm_never_errors_witness :
    launch_ref envInvalid (.tiling2d {}) = (.ok, [.tiling2dKernel {}]) ∧
    (launch_ref envInvalid .standard).1 = .err (.invalidConfig ⟨7⟩) :=
  ⟨(tiling2d_arm_never_errors envInvalid {}).1,
    (tiling2d_arm_never_errors envInvalid {}).2.1 _ rfl⟩

/-! ## Claims about shapes, strides and the grid -/

/-- **C6.** For batch-compatible problems the derived shapes decompose as
`shape(Lhs) = Lhs.batch ++ [m, k]`, `shape(Rhs) = Rhs.batch ++ [k, n]`, and
`shape(Out) = batch_broadcast(Lhs.batch, Rhs.batch) ++ [m, n]`. -/
theorem shape_decomposition (p : MatmulProblem)
    (_h : batchCompatible p.batches.1 p.batches.2 = true) :
    shape p .lhs = p.batches.1 ++ [p.m, p.k] ∧
    shape p .rhs = p.batches.2 ++ [p.k, p.n] ∧
    shape p .out = batchBroadcast p.batches.1 p.batches.2 ++ [p.m, p.n] :=
  ⟨rfl, rfl, rfl⟩

/-- Witness for C6 at a concrete broadcast-compatible problem. -/
theorem shape_decomposition_witness :
    batchCompatible [2, 1] [3] = true ∧
    shape { m := 4, n := 5, k := 6, batches := ([2, 1], [3]),
            lhs_layout := .rowMajor, rhs_layout := .rowMajor } .out = [2, 3, 4, 5] :=
  ⟨by decide,
    (shape_decomposition
      { m := 4, n := 5, k := 6, batches := ([2, 1], [3]),
        lhs_layout := .rowMajor, rhs_layout := .rowMajor } (by decide)).2.2.trans
      (by decide)⟩

/-- **C7.** `StandardAlgorithm::cube_count` ceiling-divides `m` by the stage
extent `num_stagess.m * tile.m` and `n` by `num_stagess.n * tile.n`, and
passes both cube counts together with the batch count to the bound Batch
dispatch policy. -/
theorem standard_cube_count {α : Type} (dispatch : Nat → Nat → Nat → α)
    (selection : MatmulSelection) (problem : MatmulProblem)
    (hm0 : 0 < selection.num_stagess.m * selection.tile.m)
    (hn0 : 0 < selection.num_stagess.n * selection.tile.n)
    (hm : problem.m + selection.num_stagess.m * selection.tile.m < U32)
    (hn : problem.n + selection.num_stagess.n * selection.tile.n < U32) :
    cube_count dispatch selection problem =
      dispatch (problem.m ⌈/⌉ (selection.num_stagess.m * selection.tile.m))
        (problem.n ⌈/⌉ (selection.num_stagess.n * selection.tile.n))
        (problem.num_batches % U32) := by
  simp only [cube_count]
  rw [wsub1_stage_div _ _ hm0 hm, wsub1_stage_div _ _ hn0 hn]

/-- Witness for C7 at a concrete selection and problem. -/
theorem standard_cube_count_witness :
    (0 : Nat) < 2 * 16 ∧ (100 : Nat) + 2 * 16 < U32 ∧
    cube_count (fun a b c => (a, b, c))
      { tile := ⟨16, 16, 16⟩, num_stagess := ⟨2, 2, 1⟩, plane_dim := 32 }
      { m := 100, n := 50, k := 16, batches := ([2, 3], [3]),
        lhs_layout := .rowMajor, rhs_layout := .rowMajor } = (4, 2, 6) :=
  ⟨by decide, by decide,
    (standard_cube_count (fun a b c => (a, b, c))
      { tile := ⟨16, 16, 16⟩, num_stagess := ⟨2, 2, 1⟩, plane_dim := 32 }
      { m := 100, n := 50, k := 16, batches := ([2, 3], [3]),
        lhs_layout := .rowMajor, rhs_layout := .rowMajor }
      (by decide) (by decide) (by decide) (by decide)).trans (by decide)⟩

/-- **C5 (failing-input evaluation).** With two batch dimensions the derived
strides are not the inverse of the shape: for `batches = [2, 3]`, `m = 2`,
`k = 5`, RowMajor, the code yields `[50, 10, 5, 1]` while the reference
row-major strides are `[30, 10, 5, 1]`; the valid index `[1, 0, 0, 0]` is
addressed at offset 50 instead of 30, and the valid index `[1, 2, 1, 4]` is
addressed at offset 79, past the 60 elements the tensor holds. -/
theorem strides_multi_batch_mismatch :
    strides pBug .lhs = [50, 10, 5, 1] ∧
    rowMajorStrides (shape pBug .lhs) = [30, 10, 5, 1] ∧
    strides pBug .lhs ≠ rowMajorStrides (shape pBug .lhs) ∧
    offsetOf (strides pBug .lhs) [1, 0, 0, 0] = 50 ∧
    naiveRowMajorOffset (shape pBug .lhs) [1, 0, 0, 0] = 30 ∧
    tensor_size pBug .lhs = 60 ∧
    offsetOf (strides pBug .lhs) [1, 2, 1, 4] = 79 := by
  refine ⟨by decide, by decide, by decide, by decide, by decide, by decide, by decide⟩

/-! ## Claim about the pipeline copy size -/

/-- **C8.** The byte count the `MemCopyAsync` emission passes to the
asynchronous copy is the element byte width times the vectorization factor
times the source's element count, all taken from the source variable. -/
theorem mem_copy_async_size (pipeline source destination : CppVariable) :
    emittedTransferSize (.memCopyAsync pipeline source destination) =
      some (source.item.elem.size * source.item.vectorization * source.length) := by
  simp [emittedTransferSize, memCopySize, Nat.mul_comm]

/-! ## Lemmas about the allocator pool search -/

/-- A map whose image is duplicate-free is injective on the list's members. -/
theorem nodup_map_inj_on {α β : Type} (f : α → β) (l : List α)
    (h : (l.map f).Nodup) : ∀ x ∈ l, ∀ y ∈ l, f x = f y → x = y := by
  induction l with
  | nil => intro x hx; simp at hx
  | cons a t ih =>
    simp only [List.map_cons, List.nodup_cons] at h
    intro x hx y hy hf
    rcases List.mem_cons.mp hx with hx1 | hx1
    · rcases List.mem_cons.mp hy with hy1 | hy1
      · rw [hx1, hy1]
      · subst hx1
        exact (h.1 (List.mem_map.mpr ⟨y, hy1, hf.symm⟩)).elim
    · rcases List.mem_cons.mp hy with hy1 | hy1
      · subst hy1
        exact (h.1 (List.mem_map.mpr ⟨x, hx1, hf⟩)).elim
      · exact ih h.2 x hx1 y hy1 hf

/-- The pool search fails exactly when no pooled binding of the item is
solely owned by the pool. -/
theorem bumpLast_eq_none_iff (l : List PoolVar) (item : Item) :
    bumpLast l item = none ↔ ∀ v ∈ l, ¬(v.item = item ∧ v.strong = 1) := by
  induction l with
  | nil => simp [bumpLast]
  | cons w rest ih =>
    simp only [bumpLast]
    cases hr : bumpLast rest item with
    | some p =>
      simp only [reduceCtorEq, false_iff]
      intro hall
      have : bumpLast rest item = none := ih.mpr fun v hv => hall v (List.mem_cons_of_mem w hv)
      rw [this] at hr
      exact absurd hr (by simp)
    | none =>
      have hrest : ∀ v ∈ rest, ¬(v.item = item ∧ v.strong = 1) := ih.mp hr
      constructor
      · intro h v hv
        rcases List.mem_cons.mp hv with hv | hv
        · subst hv
          intro hc
          rw [if_pos hc] at h
          exact absurd h (by simp)
        · exact hrest v hv
      · intro hall
        rw [if_neg (hall w (List.mem_cons_self w rest))]

/-- Structure of a successful pool search: the pool splits around the found
binding, which matched the item with count 1 and is returned with its count
bumped; everything else is untouched. -/
theorem bumpLast_some_spec (l : List PoolVar) (item : Item) (id : Nat) (l' : List PoolVar)
    (h : bumpLast l item = some (id, l')) :
    ∃ l₁ v l₂, l = l₁ ++ v :: l₂ ∧
      l' = l₁ ++ { v with strong := v.strong + 1 } :: l₂ ∧
      v.item = item ∧ v.strong = 1 ∧ id = v.id := by
  induction l generalizing id l' with
  | nil => simp [bumpLast] at h
  | cons w rest ih =>
    simp only [bumpLast] at h
    cases hr : bumpLast rest item with
    | some p =>
      rw [hr] at h
      simp only [Option.some.injEq, Prod.mk.injEq] at h
      obtain ⟨hid, hl⟩ := h
      obtain ⟨l₁, v, l₂, he, he', hv1, hv2, hv3⟩ := ih p.1 p.2 (by rw [hr])
      exact ⟨w :: l₁, v, l₂, by rw [he, List.cons_append],
        by rw [← hl, he', List.cons_append], hv1, hv2, by rw [← hid, hv3]⟩
    | none =>
      rw [hr] at h
      by_cases hc : w.item = item ∧ w.strong = 1
      · rw [if_pos hc] at h
        simp only [Option.some.injEq, Prod.mk.injEq] at h
        exact ⟨[], w, rest, rfl, by rw [← h.2]; simp, hc.1, hc.2, h.1.symm⟩
      · rw [if_neg hc] at h
        exact absurd h (by simp)

/-- `reuse_local_mut` succeeds exactly when some pooled binding of the item
has reference count 1. -/
theorem reuse_none_iff (a : Allocator) (item : Item) :
    a.reuse_local_mut item = none ↔ ∀ v ∈ a.pool, ¬(v.item = item ∧ v.strong = 1) := by
  rw [← bumpLast_eq_none_iff a.pool item]
  simp [Allocator.reuse_local_mut, Option.map_eq_none]

/-- Structure of a successful `reuse_local_mut`: the counter is untouched,
the pool splits around the reused binding (count bumped from 1 to 2), and
the returned element is the managed variable with that binding's id. -/
theorem reuse_some_spec (a : Allocator) (item : Item) (e : ExpandElement) (a' : Allocator)
    (h : a.reuse_local_mut item = some (e, a')) :
    a'.nextId = a.nextId ∧
    ∃ l₁ v l₂, a.pool = l₁ ++ v :: l₂ ∧
      a'.pool = l₁ ++ { v with strong := v.strong + 1 } :: l₂ ∧
      v.item = item ∧ v.strong = 1 ∧ e = .managed ⟨.localMut v.id, item⟩ := by
  unfold Allocator.reuse_local_mut at h
  cases hb : bumpLast a.pool item with
  | none =>
    rw [hb] at h
    exact absurd h (by simp)
  | some p =>
    rw [hb] at h
    have h' : (ExpandElement.managed ⟨.localMut p.1, item⟩, { a with pool := p.2 }) = (e, a') :=
      Option.some.inj h
    obtain ⟨l₁, v, l₂, h1, h2, h3, h4, h5⟩ := bumpLast_some_spec a.pool item p.1 p.2 hb
    have he : e = ExpandElement.managed ⟨.localMut p.1, item⟩ := (congrArg Prod.fst h').symm
    have ha' : a' = { a with pool := p.2 } := (congrArg Prod.snd h').symm
    refine ⟨by rw [ha'], l₁, v, l₂, h1, by rw [ha', ← h2], h3, h4, by rw [he, h5]⟩

/-- Item-only counts only depend on the pool footprint. -/
theorem poolCount_eq_key (a : Allocator) (item : Item) :
    poolCount a item = (poolKey a).countP fun pr => pr.1 == item := by
  unfold poolCount poolKey
  rw [List.countP_map]
  rfl

/-- Allocators with the same pool footprint have the same per-item count. -/
theorem poolCount_of_poolKey_eq (a b : Allocator) (h : poolKey a = poolKey b) (item : Item) :
    poolCount a item = poolCount b item := by
  rw [poolCount_eq_key, poolCount_eq_key, h]

/-- Dropping a handle never changes the pool footprint. -/
theorem dropManaged_poolKey (a : Allocator) (id : Nat) :
    poolKey (a.dropManaged id) = poolKey a := by
  unfold poolKey Allocator.dropManaged
  rw [List.map_map]
  apply List.map_congr_left
  intro w _
  by_cases hw : w.id = id <;> simp [hw]

/-- Reusing a pooled binding never changes the pool footprint. -/
theorem reuse_poolKey (a : Allocator) (item : Item) (e : ExpandElement) (a' : Allocator)
    (h : a.reuse_local_mut item = some (e, a')) : poolKey a' = poolKey a := by
  obtain ⟨-, l₁, v, l₂, h1, h2, -, -, -⟩ := reuse_some_spec a item e a' h
  simp [poolKey, h1, h2]

/-- Live bindings are pooled bindings. -/
theorem liveCount_le_poolCount (a : Allocator) (item : Item) :
    liveCount a item ≤ poolCount a item :=
  List.countP_mono_left fun w _ h => by
    simp only [Bool.and_eq_true] at h
    exact h.1

/-- The high-water mark dominates the current live count. -/
theorem liveCount_le_hwm (a : Allocator) (item : Item) (ops : List AllocOp) :
    liveCount a item ≤ hwm a item ops := by
  cases ops with
  | nil => exact Nat.le_refl _
  | cons op rest => exact Nat.le_max_left _ _

/-- The initial allocator is well-formed. -/
theorem allocWf_init : AllocWf Allocator.init := by
  refine ⟨?_, ?_, ?_⟩ <;> simp [Allocator.init]

/-- `create_local_mut` on an atomic item is `create_local_restricted`:
a plain binding carrying the next id, the pool untouched. -/
theorem create_mut_atomic_eq (a : Allocator) (it : Item) (h : it.elem.is_atomic = true) :
    a.create_local_mut it =
      (.plain ⟨.localMut a.nextId, it⟩, { a with nextId := (a.nextId + 1) % U32 }) := by
  simp [Allocator.create_local_mut, h, Allocator.create_local_restricted,
    Allocator.new_local_index]

/-- On the reuse path `create_local_mut` returns exactly the reused pair. -/
theorem create_mut_reuse_eq (a : Allocator) (it : Item) (e : ExpandElement) (a' : Allocator)
    (hna : it.elem.is_atomic = false) (h : a.reuse_local_mut it = some (e, a')) :
    a.create_local_mut it = (e, a') := by
  simp [Allocator.create_local_mut, hna, h]

/-- On the fresh path `create_local_mut` registers a new binding with the
next id into the pool and advances the counter once. -/
theorem create_mut_fresh_eq (a : Allocator) (it : Item)
    (hna : it.elem.is_atomic = false) (h : a.reuse_local_mut it = none) :
    a.create_local_mut it =
      (.managed ⟨.localMut a.nextId, it⟩,
        { pool := a.pool ++ [⟨it, a.nextId, 2⟩], nextId := (a.nextId + 1) % U32 }) := by
  simp [Allocator.create_local_mut, hna, h, Allocator.add_local_mut, Allocator.new_local_index]

/-- Appending one binding adjusts the per-item counts by its own predicate
values. -/
theorem poolCount_append (a : Allocator) (v : PoolVar) (item : Item) :
    poolCount { a with pool := a.pool ++ [v] } item =
      poolCount a item + (if v.item == item then 1 else 0) := by
  unfold poolCount
  rw [List.countP_append]
  simp [List.countP_cons]

/-- Appending one binding adjusts the live count likewise. -/
theorem liveCount_append (a : Allocator) (v : PoolVar) (item : Item) :
    liveCount { a with pool := a.pool ++ [v] } item =
      liveCount a item + (if (v.item == item && 2 ≤ v.strong) then 1 else 0) := by
  unfold liveCount
  rw [List.countP_append]
  simp [List.countP_cons]

/-- A successful reuse for `it` raises the live count of `it` by one and
leaves other items' live counts unchanged. -/
theorem reuse_liveCount (a : Allocator) (it : Item) (e : ExpandElement) (a' : Allocator)
    (h : a.reuse_local_mut it = some (e, a')) (item : Item) :
    liveCount a' item = liveCount a item + (if it == item then 1 else 0) := by
  obtain ⟨-, l₁, v, l₂, h1, h2, h3, h4, -⟩ := reuse_some_spec a it e a' h
  unfold liveCount
  rw [h1, h2]
  simp only [List.countP_append, List.countP_cons]
  have hv : (v.item == item && 2 ≤ v.strong) = false := by
    rw [h4]
    simp
  rw [hv]
  have hv' : ({ v with strong := v.strong + 1 }.item == item &&
      2 ≤ { v with strong := v.strong + 1 }.strong) = (it == item) := by
    rw [h4]
    simp only
    rw [h3]
    simp
  rw [hv']
  cases hit : (it == item)
  all_goals simp [hit]
  all_goals omega

/-- When the pool search fails every pooled binding of that item is live
(count 2), so the live count equals the pool count. -/
theorem reuse_none_liveCount (a : Allocator) (it : Item)
    (hwf : AllocWf a) (h : a.reuse_local_mut it = none) :
    liveCount a it = poolCount a it := by
  have hall := (reuse_none_iff a it).mp h
  unfold liveCount poolCount
  apply List.countP_congr
  intro w hw
  constructor
  · intro hb
    simp only [Bool.and_eq_true] at hb
    exact hb.1
  · intro hb
    rw [Bool.and_eq_true]
    refine ⟨hb, ?_⟩
    have hne := hall w hw
    rcases hwf.strong12 w hw with h1 | h2
    · exact absurd ⟨beq_iff_eq.mp hb, h1⟩ hne
    · simp [h2]

/-- Decoding a valid drop: some pooled binding has the dropped id and is
caller-held. -/
theorem validDrop_spec (a : Allocator) (id : Nat)
    (hv : (a.pool.any fun w => w.id == id && w.strong == 2) = true) :
    ∃ u ∈ a.pool, u.id = id ∧ u.strong = 2 := by
  rw [List.any_eq_true] at hv
  obtain ⟨u, hu, hb⟩ := hv
  simp only [Bool.and_eq_true, beq_iff_eq] at hb
  exact ⟨u, hu, hb.1, hb.2⟩

/-- Equal pool footprints give equal id lists. -/
theorem ids_eq_of_poolKey_eq (a b : Allocator) (h : poolKey a = poolKey b) :
    a.pool.map PoolVar.id = b.pool.map PoolVar.id := by
  have h2 := congrArg (List.map Prod.snd) h
  simpa [poolKey, List.map_map, Function.comp] using h2

/-- A valid drop preserves well-formedness. -/
theorem dropManaged_wf (a : Allocator) (id : Nat) (hwf : AllocWf a)
    (hv : (a.pool.any fun w => w.id == id && w.strong == 2) = true) :
    AllocWf (a.dropManaged id) := by
  obtain ⟨u, hu, huid, hus⟩ := validDrop_spec a id hv
  refine ⟨?_, ?_, ?_⟩
  · intro w hw
    simp only [Allocator.dropManaged, List.mem_map] at hw
    obtain ⟨x, hx, hxe⟩ := hw
    have hid : w.id = x.id := by
      rw [← hxe]
      by_cases h : x.id = id <;> simp [h]
    have : (a.dropManaged id).nextId = a.nextId := rfl
    rw [this, hid]
    exact hwf.id_lt x hx
  · intro w hw
    simp only [Allocator.dropManaged, List.mem_map] at hw
    obtain ⟨x, hx, hxe⟩ := hw
    by_cases h : x.id = id
    · have hxu : x = u :=
        nodup_map_inj_on PoolVar.id a.pool hwf.nodup x hx u hu (by rw [h, huid])
      rw [← hxe]
      simp only [h, if_true, if_pos]
      left
      rw [hxu, hus]
    · rw [← hxe]
      simp only [h, if_neg, if_false]
      exact hwf.strong12 x hx
  · rw [ids_eq_of_poolKey_eq (a.dropManaged id) a (dropManaged_poolKey a id)]
    exact hwf.nodup

/-- A successful reuse preserves well-formedness. -/
theorem reuse_wf (a : Allocator) (it : Item) (e : ExpandElement) (a' : Allocator)
    (hwf : AllocWf a) (h : a.reuse_local_mut it = some (e, a')) : AllocWf a' := by
  obtain ⟨hnid, l₁, v, l₂, h1, h2, h3, h4, h5⟩ := reuse_some_spec a it e a' h
  have hvmem : v ∈ a.pool := by
    rw [h1]
    exact List.mem_append_right _ (List.mem_cons_self _ _)
  refine ⟨?_, ?_, ?_⟩
  · intro w hw
    rw [hnid]
    rw [h2] at hw
    rcases List.mem_append.mp hw with hw | hw
    · exact hwf.id_lt w (by rw [h1]; exact List.mem_append_left _ hw)
    · rcases List.mem_cons.mp hw with hw | hw
      · have hid : w.id = v.id := by rw [hw]
        rw [hid]
        exact hwf.id_lt v hvmem
      · exact hwf.id_lt w (by rw [h1]; exact List.mem_append_right _ (List.mem_cons_of_mem _ hw))
  · intro w hw
    rw [h2] at hw
    rcases List.mem_append.mp hw with hw | hw
    · exact hwf.strong12 w (by rw [h1]; exact List.mem_append_left _ hw)
    · rcases List.mem_cons.mp hw with hw | hw
      · rw [hw]
        right
        simp only
        rw [h4]
      · exact hwf.strong12 w
          (by rw [h1]; exact List.mem_append_right _ (List.mem_cons_of_mem _ hw))
  · rw [ids_eq_of_poolKey_eq a' a (reuse_poolKey a it e a' h)]
    exact hwf.nodup

/-- Registering a fresh binding preserves well-formedness (no counter
wrap). -/
theorem fresh_wf (a : Allocator) (it : Item) (hwf : AllocWf a) (hn : a.nextId + 1 < U32) :
    AllocWf { pool := a.pool ++ [⟨it, a.nextId, 2⟩], nextId := (a.nextId + 1) % U32 } := by
  have hmod : (a.nextId + 1) % U32 = a.nextId + 1 := Nat.mod_eq_of_lt hn
  refine ⟨?_, ?_, ?_⟩
  · intro w hw
    simp only at hw ⊢
    rw [hmod]
    rcases List.mem_append.mp hw with hw | hw
    · exact Nat.lt_succ_of_lt (hwf.id_lt w hw)
    · rcases List.mem_cons.mp hw with hw | hw
      · rw [hw]
        exact Nat.lt_succ_self _
      · simp at hw
  · intro w hw
    simp only at hw
    rcases List.mem_append.mp hw with hw | hw
    · exact hwf.strong12 w hw
    · rcases List.mem_cons.mp hw with hw | hw
      · rw [hw]
        right
        rfl
      · simp at hw
  · simp only [List.map_append, List.map_cons, List.map_nil]
    rw [List.nodup_append]
    refine ⟨hwf.nodup, List.nodup_singleton _, ?_⟩
    intro y hy hy2
    simp only [List.mem_singleton] at hy2
    obtain ⟨x, hx, hxe⟩ := List.mem_map.mp hy
    rw [hy2] at hxe
    exact absurd (hxe ▸ hwf.id_lt x hx) (lt_irrefl _)

/-- Membership of a pooled binding's id in its item's id list. -/
theorem mem_idsFor (a : Allocator) (item : Item) (v : PoolVar)
    (hv : v ∈ a.pool) (hit : v.item = item) : v.id ∈ idsFor a item := by
  unfold idsFor poolKey
  apply List.mem_map.mpr
  refine ⟨(v.item, v.id), ?_, rfl⟩
  apply List.mem_filter.mpr
  exact ⟨List.mem_map.mpr ⟨v, hv, rfl⟩, by simp [hit]⟩

/-- Equal pool footprints give equal per-item id lists. -/
theorem idsFor_of_poolKey_eq (a b : Allocator) (h : poolKey a = poolKey b) (item : Item) :
    idsFor a item = idsFor b item := by
  unfold idsFor
  rw [h]

/-- Appending one pooled binding appends its id to its own item's id list
and leaves other items' lists unchanged. -/
theorem idsFor_append (a : Allocator) (v : PoolVar) (x : Nat) (item : Item) :
    idsFor { pool := a.pool ++ [v], nextId := x } item =
      idsFor a item ++ (if v.item == item then [v.id] else []) := by
  unfold idsFor poolKey
  simp only [List.map_append, List.filter_append]
  cases hv : (v.item == item) <;> simp [List.filter_cons, hv]

/-- Per-item counts of the state produced by a fresh registration. -/
theorem fresh_counts (a : Allocator) (it : Item) (item : Item) :
    poolCount ⟨a.pool ++ [⟨it, a.nextId, 2⟩], (a.nextId + 1) % U32⟩ item
      = poolCount a item + (if it == item then 1 else 0) ∧
    liveCount ⟨a.pool ++ [⟨it, a.nextId, 2⟩], (a.nextId + 1) % U32⟩ item
      = liveCount a item + (if it == item then 1 else 0) := by
  constructor
  · unfold poolCount
    simp [List.countP_append, List.countP_cons]
  · unfold liveCount
    simp [List.countP_append, List.countP_cons]

/-- One validated step from a well-formed state: well-formedness is kept,
the counter moves by at most one, and for every item the pool count either
stays (drop, reuse, atomic) or grows by one with the live count catching up
to it (fresh registration). -/
theorem stepOp_spec (a : Allocator) (op : AllocOp) (item : Item) (hwf : AllocWf a)
    (hn : a.nextId + 1 < U32)
    (hv : (match op with
      | AllocOp.createMut _ => true
      | AllocOp.dropVar id => a.pool.any fun w => w.id == id && w.strong == 2) = true) :
    AllocWf (stepOp a op) ∧
    a.nextId ≤ (stepOp a op).nextId ∧ (stepOp a op).nextId ≤ a.nextId + 1 ∧
    (poolCount (stepOp a op) item = poolCount a item ∨
      (poolCount (stepOp a op) item = poolCount a item + 1 ∧
        liveCount (stepOp a op) item = poolCount a item + 1)) := by
  have hmod : (a.nextId + 1) % U32 = a.nextId + 1 := Nat.mod_eq_of_lt hn
  cases op with
  | dropVar id =>
    have hstep : stepOp a (.dropVar id) = a.dropManaged id := rfl
    rw [hstep]
    have hnid : (a.dropManaged id).nextId = a.nextId := rfl
    exact ⟨dropManaged_wf a id hwf hv, by rw [hnid], by rw [hnid]; exact Nat.le_succ _,
      Or.inl (poolCount_of_poolKey_eq _ _ (dropManaged_poolKey a id) item)⟩
  | createMut it =>
    have hstep : stepOp a (.createMut it) = (a.create_local_mut it).2 := rfl
    rw [hstep]
    by_cases hat : it.elem.is_atomic = true
    · rw [create_mut_atomic_eq a it hat]
      refine ⟨⟨?_, hwf.strong12, hwf.nodup⟩, ?_, ?_, Or.inl rfl⟩
      · intro w hw
        simp only [hmod]
        exact Nat.lt_succ_of_lt (hwf.id_lt w hw)
      · simp only [hmod]
        exact Nat.le_succ _
      · simp only [hmod]
        exact Nat.le_refl _
    · have hat' : it.elem.is_atomic = false := Bool.eq_false_iff.mpr hat
      cases hr : a.reuse_local_mut it with
      | some r =>
        rw [create_mut_reuse_eq a it r.1 r.2 hat' (by rw [hr])]
        obtain ⟨hnid, -⟩ := reuse_some_spec a it r.1 r.2 (by rw [hr])
        refine ⟨reuse_wf a it r.1 r.2 hwf (by rw [hr]), by rw [hnid],
          by rw [hnid]; exact Nat.le_succ _,
          Or.inl (poolCount_of_poolKey_eq _ _ (reuse_poolKey a it r.1 r.2 (by rw [hr])) item)⟩
      | none =>
        rw [create_mut_fresh_eq a it hat' hr]
        obtain ⟨hpc, hlc⟩ := fresh_counts a it item
        refine ⟨fresh_wf a it hwf hn, ?_, ?_, ?_⟩
        · simp only [hmod]
          exact Nat.le_succ _
        · simp only [hmod]
          exact Nat.le_refl _
        · by_cases hit : it = item
          · subst hit
            right
            have hl := reuse_none_liveCount a it hwf hr
            constructor
            · rw [hpc]
              simp
            · rw [hlc, hl]
              simp
          · left
            have hbeq : (it == item) = false := beq_false_of_ne hit
            rw [hpc, hbeq]
            simp

/-- The master invariant of a validated run from a well-formed state: the
final state is well-formed; for the fixed (non-atomic) item the final pool
count is the larger of the initial pool count and the run's high-water mark;
and the ids issued for the item extend the initial id set to exactly the
final id set. -/
theorem runOps_spec (item : Item) (hna : item.elem.is_atomic = false) :
    ∀ (ops : List AllocOp) (a : Allocator), AllocWf a →
      a.nextId + ops.length < U32 → validOpsFrom a ops = true →
      AllocWf (runOps a ops) ∧
      poolCount (runOps a ops) item = max (poolCount a item) (hwm a item ops) ∧
      (issuedIds a item ops).toFinset ∪ (idsFor a item).toFinset
        = (idsFor (runOps a ops) item).toFinset := by
  intro ops
  induction ops with
  | nil =>
    intro a hwf _ _
    refine ⟨hwf, ?_, ?_⟩
    · show poolCount a item = max (poolCount a item) (liveCount a item)
      exact (Nat.max_eq_left (liveCount_le_poolCount a item)).symm
    · show (([] : List Nat)).toFinset ∪ (idsFor a item).toFinset = (idsFor a item).toFinset
      simp
  | cons op rest ih =>
    intro a hwf hn hv
    simp only [validOpsFrom, Bool.and_eq_true] at hv
    obtain ⟨hvop, hvrest⟩ := hv
    have hn1 : a.nextId + 1 < U32 := by
      simp only [List.length_cons] at hn
      omega
    obtain ⟨hwf2, hle1, hle2, hdich⟩ := stepOp_spec a op item hwf hn1 hvop
    have hn2 : (stepOp a op).nextId + rest.length < U32 := by
      simp only [List.length_cons] at hn
      omega
    obtain ⟨hwf3, hpc3, hids3⟩ := ih (stepOp a op) hwf2 hn2 hvrest
    refine ⟨hwf3, ?_, ?_⟩
    · show poolCount (runOps (stepOp a op) rest) item = _
      rw [hpc3]
      have hwmc : hwm a item (op :: rest) =
          max (liveCount a item) (hwm (stepOp a op) item rest) := rfl
      rw [hwmc]
      have h6 := liveCount_le_poolCount a item
      rcases hdich with h | ⟨h1, h2⟩
      · rw [h]
        omega
      · have h7 := liveCount_le_hwm (stepOp a op) item rest
        rw [h2] at h7
        rw [h1]
        omega
    · cases op with
      | dropVar id =>
        have hkey : idsFor a item = idsFor (stepOp a (AllocOp.dropVar id)) item :=
          (idsFor_of_poolKey_eq _ _ (dropManaged_poolKey a id) item).symm
        show (issuedIds (a.dropManaged id) item rest).toFinset ∪ (idsFor a item).toFinset = _
        rw [hkey]
        exact hids3
      | createMut it =>
        by_cases hat : it.elem.is_atomic = true
        · have hne : it ≠ item := by
            intro hh
            rw [hh, hna] at hat
            exact Bool.false_ne_true hat
          show ((if it = item then [(a.create_local_mut it).1.varId] else []) ++
              issuedIds (a.create_local_mut it).2 item rest).toFinset ∪
              (idsFor a item).toFinset = _
          rw [if_neg hne, List.nil_append]
          have hkey : idsFor a item = idsFor (stepOp a (AllocOp.createMut it)) item := by
            apply idsFor_of_poolKey_eq
            have hs : stepOp a (AllocOp.createMut it) =
                { a with nextId := (a.nextId + 1) % U32 } := by
              show (a.create_local_mut it).2 = _
              rw [create_mut_atomic_eq a it hat]
            rw [hs]
            rfl
          rw [hkey]
          exact hids3
        · have hat' : it.elem.is_atomic = false := Bool.eq_false_iff.mpr hat
          cases hr : a.reuse_local_mut it with
          | some r =>
            have hcr : a.create_local_mut it = (r.1, r.2) :=
              create_mut_reuse_eq a it r.1 r.2 hat' (by rw [hr])
            obtain ⟨hnid, l₁, v, l₂, h1, h2, h3, h5e, h5⟩ :=
              reuse_some_spec a it r.1 r.2 (by rw [hr])
            have hkey : idsFor (stepOp a (AllocOp.createMut it)) item = idsFor a item := by
              apply idsFor_of_poolKey_eq
              show poolKey (a.create_local_mut it).2 = _
              rw [hcr]
              exact reuse_poolKey a it r.1 r.2 (by rw [hr])
            show ((if it = item then [(a.create_local_mut it).1.varId] else []) ++
                issuedIds (a.create_local_mut it).2 item rest).toFinset ∪
                (idsFor a item).toFinset = _
            by_cases hit : it = item
            · rw [if_pos hit]
              have hvid : (a.create_local_mut it).1.varId = v.id := by
                rw [hcr, h5]
                rfl
              rw [hvid, List.singleton_append, List.toFinset_cons]
              have hmem : v.id ∈ (idsFor a item).toFinset := by
                rw [List.mem_toFinset]
                exact mem_idsFor a item v
                  (by rw [h1]; exact List.mem_append_right _ (List.mem_cons_self _ _))
                  (by rw [h3, hit])
              have hrun : runOps a (AllocOp.createMut it :: rest) =
                  runOps (stepOp a (AllocOp.createMut it)) rest := rfl
              rw [hrun, ← hids3, hkey, Finset.insert_union]
              exact Finset.insert_eq_self.mpr
                (Finset.mem_union_right _ hmem)
            · have hrun : runOps a (AllocOp.createMut it :: rest) =
                  runOps (stepOp a (AllocOp.createMut it)) rest := rfl
              rw [if_neg hit, List.nil_append, hrun, ← hids3, hkey]
              rfl
          | none =>
            have hcr := create_mut_fresh_eq a it hat' hr
            have hstep : stepOp a (AllocOp.createMut it) =
                (⟨a.pool ++ [⟨it, a.nextId, 2⟩], (a.nextId + 1) % U32⟩ : Allocator) := by
              show (a.create_local_mut it).2 = _
              rw [hcr]
            show ((if it = item then [(a.create_local_mut it).1.varId] else []) ++
                issuedIds (a.create_local_mut it).2 item rest).toFinset ∪
                (idsFor a item).toFinset = _
            by_cases hit : it = item
            · rw [if_pos hit]
              have hvid : (a.create_local_mut it).1.varId = a.nextId := by
                rw [hcr]
                rfl
              rw [hvid, List.singleton_append, List.toFinset_cons]
              have hkey : idsFor (stepOp a (AllocOp.createMut it)) item
                  = idsFor a item ++ [a.nextId] := by
                rw [hstep, idsFor_append]
                simp [hit]
              have hrun : runOps a (AllocOp.createMut it :: rest) =
                  runOps (stepOp a (AllocOp.createMut it)) rest := rfl
              rw [hrun, ← hids3, hkey, List.toFinset_append]
              ext x
              simp only [Finset.mem_union, Finset.mem_insert, List.mem_toFinset,
                List.toFinset_cons, List.toFinset_nil, insert_emptyc_eq,
                Finset.mem_singleton]
              tauto
            · have hrun : runOps a (AllocOp.createMut it :: rest) =
                  runOps (stepOp a (AllocOp.createMut it)) rest := rfl
              rw [if_neg hit, List.nil_append, hrun, ← hids3]
              have hkey : idsFor (stepOp a (AllocOp.createMut it)) item = idsFor a item := by
                rw [hstep, idsFor_append]
                have hbeq : (it == item) = false := beq_false_of_ne hit
                simp [hbeq]
              rw [hkey]
              rfl

/-- The per-item id list is as long as the per-item pool count. -/
theorem idsFor_length (a : Allocator) (item : Item) :
    (idsFor a item).length = poolCount a item := by
  unfold idsFor
  rw [List.length_map, poolCount_eq_key, List.countP_eq_length_filter]

/-- In a well-formed state the per-item id list has no duplicates. -/
theorem idsFor_nodup (a : Allocator) (item : Item) (hwf : AllocWf a) :
    (idsFor a item).Nodup := by
  have h1 : List.Sublist
      ((a.pool.map fun w => (w.item, w.id)).filter fun pr => pr.1 == item)
      (a.pool.map fun w => (w.item, w.id)) := List.filter_sublist _
  have h2 := List.Sublist.map Prod.snd h1
  rw [List.map_map] at h2
  exact hwf.nodup.sublist h2

/-- **C2.** For any valid create/drop history on one allocator, the number
of distinct ids ever issued for a fixed non-atomic item equals the
high-water mark of simultaneously live mutable bindings of that item (not
the call count); a call reuses a pooled binding exactly when one has no
owner besides the pool (count 1), and otherwise registers a fresh binding
into the pool. -/
theorem create_local_mut_pooling (item : Item) (ops : List AllocOp)
    (hna : item.elem.is_atomic = false)
    (hv : validOpsFrom Allocator.init ops = true)
    (hlen : ops.length < U32) :
    (issuedIds Allocator.init item ops).dedup.length = hwm Allocator.init item ops ∧
    (∀ a : Allocator,
      ((a.reuse_local_mut item).isSome ↔ ∃ w ∈ a.pool, w.item = item ∧ w.strong = 1)) ∧
    (∀ a : Allocator, a.reuse_local_mut item = none →
      (a.create_local_mut item).2.pool = a.pool ++ [⟨item, a.nextId, 2⟩]) := by
  refine ⟨?_, ?_, ?_⟩
  · have hinit : Allocator.init.nextId + ops.length < U32 := by
      show 0 + ops.length < U32
      omega
    obtain ⟨hwfF, hpc, hids⟩ := runOps_spec item hna ops Allocator.init allocWf_init hinit hv
    have hinit2 : (idsFor Allocator.init item).toFinset = ∅ := by
      simp [idsFor, poolKey, Allocator.init]
    rw [hinit2, Finset.union_empty] at hids
    rw [← List.card_toFinset, hids,
      List.toFinset_card_of_nodup (idsFor_nodup _ item hwfF), idsFor_length, hpc]
    have h0 : poolCount Allocator.init item = 0 := rfl
    rw [h0]
    omega
  · intro a
    constructor
    · intro hs
      cases hopt : a.reuse_local_mut item with
      | none =>
        rw [hopt] at hs
        exact absurd hs (by simp)
      | some p =>
        obtain ⟨-, l₁, v, l₂, h1, -, h3, h4, -⟩ :=
          reuse_some_spec a item p.1 p.2 (by rw [hopt])
        exact ⟨v, by rw [h1]; exact List.mem_append_right _ (List.mem_cons_self _ _), h3, h4⟩
    · rintro ⟨w, hw, h1, h2⟩
      cases hopt : a.reuse_local_mut item with
      | none => exact absurd ⟨h1, h2⟩ ((reuse_none_iff a item).mp hopt w hw)
      | some p => simp
  · intro a hnone
    rw [create_mut_fresh_eq a item hna hnone]

/-- Witness for C2 at a concrete history: three creates with a drop between
issue two distinct ids, matching the high-water mark of two. -/
theorem create_local_mut_pooling_witness :
    itF.elem.is_atomic = false ∧
    validOpsFrom Allocator.init opsPool = true ∧
    (issuedIds Allocator.init itF opsPool).dedup.length = 2 ∧
    hwm Allocator.init itF opsPool = 2 :=
  ⟨by decide, by decide,
    ((create_local_mut_pooling itF opsPool (by decide) (by decide) (by decide)).1).trans
      (by decide),
    by decide⟩

/-- **C9.** A reusing `create_local_mut` returns the pooled binding with its
original id, leaves the counter untouched and the pool footprint of every
item unchanged; the counter advances exactly once per call only on the
fresh paths (no reusable candidate, or an atomic item, which also leaves
the pool itself unchanged). -/
theorem create_local_mut_frame (a : Allocator) (item : Item) :
    (∀ e a', a.reuse_local_mut item = some (e, a') →
      (item.elem.is_atomic = false → a.create_local_mut item = (e, a')) ∧
      a'.nextId = a.nextId ∧
      poolKey a' = poolKey a ∧
      ∃ v ∈ a.pool, v.strong = 1 ∧ v.item = item ∧
        e = .managed ⟨.localMut v.id, item⟩) ∧
    (item.elem.is_atomic = false → a.reuse_local_mut item = none →
      (a.create_local_mut item).2.nextId = (a.nextId + 1) % U32 ∧
      (a.create_local_mut item).2.pool = a.pool ++ [⟨item, a.nextId, 2⟩]) ∧
    (item.elem.is_atomic = true →
      (a.create_local_mut item).2.nextId = (a.nextId + 1) % U32 ∧
      (a.create_local_mut item).2.pool = a.pool) := by
  refine ⟨?_, ?_, ?_⟩
  · intro e a' h
    obtain ⟨hnid, l₁, v, l₂, h1, h2, h3, h4, h5⟩ := reuse_some_spec a item e a' h
    exact ⟨fun hna => create_mut_reuse_eq a item e a' hna h, hnid,
      reuse_poolKey a item e a' h,
      v, by rw [h1]; exact List.mem_append_right _ (List.mem_cons_self _ _), h4, h3, h5⟩
  · intro hna hnone
    rw [create_mut_fresh_eq a item hna hnone]
    exact ⟨rfl, rfl⟩
  · intro hat
    rw [create_mut_atomic_eq a item hat]
    exact ⟨rfl, rfl⟩

/-- Witness for C9 at a concrete reuse: the pooled binding with id 5 is
returned unchanged and the counter stays at 6. -/
theorem create_local_mut_frame_witness :
    Allocator.create_local_mut aRe itF =
      (.managed ⟨.localMut 5, itF⟩, ⟨[⟨itF, 5, 2⟩], 6⟩) ∧
    (⟨[⟨itF, 5, 2⟩], 6⟩ : Allocator).nextId = aRe.nextId :=
  ⟨((create_local_mut_frame aRe itF).1 (.managed ⟨.localMut 5, itF⟩)
      ⟨[⟨itF, 5, 2⟩], 6⟩ (by decide)).1 (by decide),
    ((create_local_mut_frame aRe itF).1 (.managed ⟨.localMut 5, itF⟩)
      ⟨[⟨itF, 5, 2⟩], 6⟩ (by decide)).2.1⟩

/-- Ids absent from one pool are absent from any pool with the same
footprint. -/
theorem ids_avoid_of_poolKey_eq (a b : Allocator) (h : poolKey a = poolKey b) (id0 : Nat)
    (hb : ∀ w ∈ b.pool, w.id ≠ id0) : ∀ w ∈ a.pool, w.id ≠ id0 := by
  intro w hw
  have hmem : w.id ∈ a.pool.map PoolVar.id := List.mem_map_of_mem _ hw
  rw [ids_eq_of_poolKey_eq a b h] at hmem
  obtain ⟨v, hv, hve⟩ := List.mem_map.mp hmem
  rw [← hve]
  exact hb v hv

/-- An id below the counter that is absent from the pool stays absent along
any run that does not wrap the counter. -/
theorem runOps_avoid_id (id0 : Nat) :
    ∀ (ops : List AllocOp) (a : Allocator), id0 < a.nextId →
      a.nextId + ops.length < U32 →
      (∀ w ∈ a.pool, w.id ≠ id0) →
      id0 < (runOps a ops).nextId ∧ ∀ w ∈ (runOps a ops).pool, w.id ≠ id0 := by
  intro ops
  induction ops with
  | nil =>
    intro a h1 _ h3
    exact ⟨h1, h3⟩
  | cons op rest ih =>
    intro a h1 hn h3
    have hn1 : a.nextId + 1 < U32 := by
      simp only [List.length_cons] at hn
      omega
    have hmod : (a.nextId + 1) % U32 = a.nextId + 1 := Nat.mod_eq_of_lt hn1
    cases op with
    | dropVar id =>
      refine ih (a.dropManaged id) h1 ?_ ?_
      · show a.nextId + rest.length < U32
        simp only [List.length_cons] at hn
        omega
      · exact ids_avoid_of_poolKey_eq _ a (dropManaged_poolKey a id) id0 h3
    | createMut it =>
      by_cases hat : it.elem.is_atomic = true
      · have hs : stepOp a (AllocOp.createMut it) =
            { a with nextId := (a.nextId + 1) % U32 } := by
          show (a.create_local_mut it).2 = _
          rw [create_mut_atomic_eq a it hat]
        show id0 < (runOps (stepOp a (AllocOp.createMut it)) rest).nextId ∧
          ∀ w ∈ (runOps (stepOp a (AllocOp.createMut it)) rest).pool, w.id ≠ id0
        rw [hs]
        refine ih _ ?_ ?_ h3
        · show id0 < (a.nextId + 1) % U32
          rw [hmod]
          omega
        · show (a.nextId + 1) % U32 + rest.length < U32
          rw [hmod]
          simp only [List.length_cons] at hn
          omega
      · have hat' : it.elem.is_atomic = false := Bool.eq_false_iff.mpr hat
        cases hr : a.reuse_local_mut it with
        | some r =>
          have hs : stepOp a (AllocOp.createMut it) = r.2 := by
            show (a.create_local_mut it).2 = _
            rw [create_mut_reuse_eq a it r.1 r.2 hat' (by rw [hr])]
          have hnid := (reuse_some_spec a it r.1 r.2 (by rw [hr])).1
          show id0 < (runOps (stepOp a (AllocOp.createMut it)) rest).nextId ∧
            ∀ w ∈ (runOps (stepOp a (AllocOp.createMut it)) rest).pool, w.id ≠ id0
          rw [hs]
          refine ih _ ?_ ?_ ?_
          · rw [hnid]
            exact h1
          · rw [hnid]
            simp only [List.length_cons] at hn
            omega
          · exact ids_avoid_of_poolKey_eq r.2 a
              (reuse_poolKey a it r.1 r.2 (by rw [hr])) id0 h3
        | none =>
          have hs : stepOp a (AllocOp.createMut it) =
              (⟨a.pool ++ [⟨it, a.nextId, 2⟩], (a.nextId + 1) % U32⟩ : Allocator) := by
            show (a.create_local_mut it).2 = _
            rw [create_mut_fresh_eq a it hat' hr]
          show id0 < (runOps (stepOp a (AllocOp.createMut it)) rest).nextId ∧
            ∀ w ∈ (runOps (stepOp a (AllocOp.createMut it)) rest).pool, w.id ≠ id0
          rw [hs]
          refine ih _ ?_ ?_ ?_
          · show id0 < (a.nextId + 1) % U32
            rw [hmod]
            omega
          · show (a.nextId + 1) % U32 + rest.length < U32
            rw [hmod]
            simp only [List.length_cons] at hn
            omega
          · intro w hw
            rcases List.mem_append.mp hw with hw | hw
            · exact h3 w hw
            · rcases List.mem_cons.mp hw with hw | hw
              · rw [hw]
                show a.nextId ≠ id0
                omega
              · simp at hw

/-- **C3.** For an atomic item `create_local_mut` is exactly
`create_local_restricted`: a plain (non-pooled) binding carrying the next
id; the pool is untouched, the issued id never appears in the pool along
any later wrap-free run, and in particular no later pool lookup (the only
source of reused bindings) can ever return it. -/
theorem create_local_mut_atomic_restricted (a : Allocator) (item : Item)
    (hat : item.elem.is_atomic = true)
    (hb : ∀ w ∈ a.pool, w.id < a.nextId)
    (hnw : a.nextId + 1 < U32) :
    a.create_local_mut item = a.create_local_restricted item ∧
    (a.create_local_mut item).1 = .plain ⟨.localMut a.nextId, item⟩ ∧
    (a.create_local_mut item).2.pool = a.pool ∧
    ∀ ops : List AllocOp, a.nextId + 1 + ops.length < U32 →
      (∀ w ∈ (runOps (a.create_local_mut item).2 ops).pool, w.id ≠ a.nextId) ∧
      ∀ it e s', (runOps (a.create_local_mut item).2 ops).reuse_local_mut it = some (e, s') →
        e.varId ≠ a.nextId := by
  have hmod : (a.nextId + 1) % U32 = a.nextId + 1 := Nat.mod_eq_of_lt hnw
  have heq := create_mut_atomic_eq a item hat
  refine ⟨by rw [heq]; rfl, by rw [heq], by rw [heq], ?_⟩
  intro ops hlen
  have havoid := runOps_avoid_id a.nextId ops (a.create_local_mut item).2 ?_ ?_ ?_
  · refine ⟨havoid.2, ?_⟩
    intro it e s' hsome
    obtain ⟨-, l₁, v, l₂, h1, -, -, -, h5⟩ :=
      reuse_some_spec _ it e s' hsome
    have hv : v ∈ (runOps (a.create_local_mut item).2 ops).pool := by
      rw [h1]
      exact List.mem_append_right _ (List.mem_cons_self _ _)
    have : e.varId = v.id := by
      rw [h5]
      rfl
    rw [this]
    exact havoid.2 v hv
  · rw [heq]
    show a.nextId < (a.nextId + 1) % U32
    rw [hmod]
    omega
  · rw [heq]
    show (a.nextId + 1) % U32 + ops.length < U32
    rw [hmod]
    omega
  · rw [heq]
    intro w hw
    exact Nat.ne_of_lt (hb w hw)

/-- Witness for C3: from a fresh allocator an atomic create yields the
restricted binding with id 0, and after a later mutable create of another
item the pool still avoids id 0. -/
theorem create_local_mut_atomic_restricted_witness :
    Allocator.create_local_mut Allocator.init ⟨.atomicUInt, 1⟩ =
      Allocator.create_local_restricted Allocator.init ⟨.atomicUInt, 1⟩ ∧
    (∀ w ∈ (runOps (Allocator.create_local_mut Allocator.init ⟨.atomicUInt, 1⟩).2
        [.createMut itF]).pool, w.id ≠ Allocator.init.nextId) :=
  ⟨(create_local_mut_atomic_restricted Allocator.init ⟨.atomicUInt, 1⟩ (by decide)
      (by simp [Allocator.init]) (by decide)).1,
    ((create_local_mut_atomic_restricted Allocator.init ⟨.atomicUInt, 1⟩ (by decide)
      (by simp [Allocator.init]) (by decide)).2.2.2 [.createMut itF] (by decide)).1⟩

/-- Every allocation kind either draws exactly the current counter value as
its new id and advances the counter once, or (reuse, drop) draws nothing
and leaves the counter alone. -/
theorem stepFull_newIds (a : Allocator) (op : FullOp) :
    (newIdsOf a op = [] ∧ (stepFull a op).nextId = a.nextId) ∨
    (newIdsOf a op = [a.nextId] ∧ (stepFull a op).nextId = (a.nextId + 1) % U32) := by
  cases op with
  | opLocal item => exact Or.inr ⟨rfl, rfl⟩
  | opRestricted item => exact Or.inr ⟨rfl, rfl⟩
  | opArray item size => exact Or.inr ⟨rfl, rfl⟩
  | opSlice item => exact Or.inr ⟨rfl, rfl⟩
  | opMatrix mat => exact Or.inr ⟨rfl, rfl⟩
  | opDrop id => exact Or.inl ⟨rfl, rfl⟩
  | opLocalMut item =>
    by_cases hat : item.elem.is_atomic = true
    · right
      refine ⟨by simp [newIdsOf, hat], ?_⟩
      show (a.create_local_mut item).2.nextId = _
      rw [create_mut_atomic_eq a item hat]
    · have hat' : item.elem.is_atomic = false := Bool.eq_false_iff.mpr hat
      cases hr : a.reuse_local_mut item with
      | some r =>
        left
        refine ⟨by simp [newIdsOf, hat', hr], ?_⟩
        show (a.create_local_mut item).2.nextId = a.nextId
        rw [create_mut_reuse_eq a item r.1 r.2 hat' (by rw [hr])]
        exact (reuse_some_spec a item r.1 r.2 (by rw [hr])).1
      | none =>
        right
        refine ⟨by simp [newIdsOf, hat', hr], ?_⟩
        show (a.create_local_mut item).2.nextId = _
        rw [create_mut_fresh_eq a item hat' hr]

/-- Along any wrap-free mixed sequence the drawn ids are at least the
starting counter and strictly increasing. -/
theorem idTrace_bounds :
    ∀ (ops : List FullOp) (a : Allocator), a.nextId + ops.length ≤ U32 →
      (∀ x ∈ idTrace a ops, a.nextId ≤ x) ∧
      List.Pairwise (· < ·) (idTrace a ops) := by
  intro ops
  induction ops with
  | nil =>
    intro a _
    constructor
    · intro x hx
      simp [idTrace] at hx
    · show List.Pairwise (· < ·) ([] : List Nat)
      exact List.Pairwise.nil
  | cons op rest ih =>
    intro a hn
    have hlen : (op :: rest).length = rest.length + 1 := rfl
    rw [hlen] at hn
    have htr : idTrace a (op :: rest) = newIdsOf a op ++ idTrace (stepFull a op) rest := rfl
    rcases stepFull_newIds a op with ⟨hids, hnid⟩ | ⟨hids, hnid⟩
    · have h2 := ih (stepFull a op) (by rw [hnid]; omega)
      rw [htr, hids, List.nil_append]
      constructor
      · intro x hx
        have := h2.1 x hx
        rw [hnid] at this
        exact this
      · exact h2.2
    · by_cases hwrap : a.nextId + 1 < U32
      · have hmod : (a.nextId + 1) % U32 = a.nextId + 1 := Nat.mod_eq_of_lt hwrap
        have h2 := ih (stepFull a op) (by rw [hnid, hmod]; omega)
        rw [htr, hids, List.singleton_append]
        constructor
        · intro x hx
          rcases List.mem_cons.mp hx with hx | hx
          · omega
          · have := h2.1 x hx
            rw [hnid, hmod] at this
            omega
        · rw [List.pairwise_cons]
          refine ⟨?_, h2.2⟩
          intro x hx
          have := h2.1 x hx
          rw [hnid, hmod] at this
          omega
      · have hrest : rest = [] := by
          have : rest.length = 0 := by omega
          exact List.length_eq_zero.mp this
        subst hrest
        rw [htr, hids]
        constructor
        · intro x hx
          have : idTrace (stepFull a op) [] = [] := rfl
          rw [this, List.append_nil, List.mem_singleton] at hx
          omega
        · have : idTrace (stepFull a op) [] = [] := rfl
          rw [this, List.append_nil]
          exact List.pairwise_singleton _ _

/-- **C4.** Every allocation kind draws from the one shared counter: over
any mixed interleaving of allocation calls (and drops) on one allocator
state — which every clone of the handle shares — the drawn ids are strictly
increasing, hence pairwise distinct. -/
theorem shared_counter_ids (ops : List FullOp) (hlen : ops.length ≤ U32) :
    List.Pairwise (· < ·) (idTrace Allocator.init ops) ∧
    (idTrace Allocator.init ops).Nodup := by
  have h := idTrace_bounds ops Allocator.init (by show 0 + ops.length ≤ U32; omega)
  exact ⟨h.2, h.2.imp fun hlt => Nat.ne_of_lt hlt⟩

/-- Witness for C4: the mixed sequence draws ids 0, 1, 2 in order (the
second `create_local_mut` reuses id 1 and draws nothing). -/
theorem shared_counter_ids_witness :
    idTrace Allocator.init opsFull = [0, 1, 2] ∧
    List.Pairwise (· < ·) (idTrace Allocator.init opsFull) :=
  ⟨by decide, (shared_counter_ids opsFull (by decide)).1⟩

end CubeCL
